import Mathlib

/-!
Shallow embedding of `egui_curve_editor/src/curve.rs` (the `Curve` control-point
container and its sampling / mutation algorithms), together with proofs about
the behaviour of those operations.

Modelling conventions:
* `f32` values are modelled as exact rationals (`ℚ`).  Rounding is abstracted;
  where the *finiteness* of a float matters (tangent values, which the source
  guards with `is_nan() || is_infinite()` and which auto-tangent recomputation
  can drive to `±∞`/`NaN` by dividing by a zero `Δx`), a float is modelled as a
  rational together with a boolean finiteness flag (`FVal`).
* `usize` arithmetic that can wrap in release builds is modelled explicitly
  (`usizeSub1`); `Vec` indexing that can panic is modelled with `Option`
  (`none` = panic) where a panic is actually reachable (`remove_point`).
* Vectors are Lean `List`s; in-place mutation becomes explicit state passing.
-/

/-- Model of `egui::Pos2` restricted to what the curve code uses:
a pair of (rational-valued) coordinates. -/
structure Q2 where
  x : ℚ
  y : ℚ
deriving DecidableEq

/-- Model of an `f32` where finiteness matters: `val` is the real value the
float would have in exact arithmetic, and `finite` is a certificate that the
float is an ordinary number.  For values passing through the tangent setters
the flag is exact (the source tests `is_nan() || is_infinite()`); for
auto-computed slopes the flag is set by `autoSlope` and is *conservative*:
`true` only when the `f32` computation is certainly an ordinary number, and
`false` both when it is certainly `NaN`/`±∞` (division by a zero width) and
when it may overflow to `±∞` (near-zero width / huge slope).  When
`finite = false` the `val` field is junk (the exact-arithmetic image, with
`x / 0 = 0`); theorems never draw conclusions from the `val` of a non-finite
value. -/
structure FVal where
  val : ℚ
  finite : Bool
deriving DecidableEq

/-- `enum TangentMode { Free, Linear }`; `Linear` is `#[default]`. -/
inductive TangentMode where
  | Free
  | Linear
deriving DecidableEq

/-- `struct Point { pos, left_tan, right_tan, left_mode, right_mode }`. -/
structure Point where
  pos : Q2
  left_tan : FVal
  right_tan : FVal
  left_mode : TangentMode
  right_mode : TangentMode
deriving DecidableEq

/-- `Point::default()`: position `(0,0)`, zero (finite) tangents, `Linear`
modes.  Used as the junk element for out-of-range `getD` reads (the source
would panic there; all call sites stay in bounds). -/
instance : Inhabited Point :=
  ⟨{ pos := ⟨0, 0⟩, left_tan := ⟨0, true⟩, right_tan := ⟨0, true⟩,
     left_mode := TangentMode.Linear, right_mode := TangentMode.Linear }⟩

/-- `Point::from_pos(pos)`: the only public `Point` constructor (all fields of
`Point` are private); tangents and modes come from `Default`. -/
def Point.from_pos (pos : Q2) : Point :=
  { pos := pos, left_tan := ⟨0, true⟩, right_tan := ⟨0, true⟩,
    left_mode := TangentMode.Linear, right_mode := TangentMode.Linear }

/-- `struct Curve { points: Vec<Point> }`. -/
structure Curve where
  points : List Point
deriving DecidableEq

/-- Rust `f32::clamp(0.0, 1.0)` on a rational (for a float that is an ordinary
number this is exactly `max 0 (min v 1)`). -/
def clamp01 (v : ℚ) : ℚ := max 0 (min v 1)

/-- `egui::Pos2::clamp(pos2(0,0), pos2(1,1))`: componentwise clamp. -/
def clampPos (p : Q2) : Q2 := ⟨clamp01 p.x, clamp01 p.y⟩

/-- `Curve::linear()`: two points `(0,0)` and `(1,1)` (default tangents). -/
def Curve.linear : Curve :=
  ⟨[Point.from_pos ⟨0, 0⟩, Point.from_pos ⟨1, 1⟩]⟩

/-- The `while max - min > 1` loop of `Curve::get_index`, with its termination
measure `mx - mn` made an explicit fuel argument so that the definition is
structurally recursive (and hence kernel-computable).  Whenever
`mx - mn ≤ fuel` — as at the call site, which passes `fuel = points.len()` —
running out of fuel coincides with the loop guard failing, so the unfolding is
exactly the source loop. -/
def getIndexLoop (l : List Point) (offset : ℚ) : Nat → Nat → Nat → Nat
  | 0, mn, mx =>
      if offset > (l.getD mx default).pos.x then mx else mn
  | fuel + 1, mn, mx =>
      if mx - mn > 1 then
        let m := (mn + mx) / 2
        let a := (l.getD m default).pos.x
        let b := (l.getD (m + 1) default).pos.x
        if a < offset ∧ b < offset then getIndexLoop l offset fuel m mx
        else if a > offset then getIndexLoop l offset fuel mn m
        else m
      else
        if offset > (l.getD mx default).pos.x then mx else mn

/-- `Curve::get_index(offset)`: binary search for the segment containing
`offset`.  Only ever called with at least 2 points. -/
def Curve.get_index (c : Curve) (offset : ℚ) : Nat :=
  getIndexLoop c.points offset c.points.length 0 (c.points.length - 1)

/-- `fn bezier_interpolate(start, control_1, control_2, end, t)`. -/
def bezier_interpolate (start control_1 control_2 endv t : ℚ) : ℚ :=
  let omt := 1 - t
  let omt2 := omt * omt
  let omt3 := omt2 * omt
  let t2 := t * t
  let t3 := t2 * t
  start * omt3 + control_1 * omt2 * t * 3 + control_2 * omt * t2 * 3 + endv * t3

/-- `const EPSILON: f32 = 0.00001;` -/
def EPSILON : ℚ := 1 / 100000

/-- `Curve::sample_local_nocheck(index, local_offset)`: cubic Bézier
evaluation on the segment `[index, index+1]`.  Tangent values enter through
their exact-arithmetic image `FVal.val`, so this definition is faithful only
when both tangents of the segment are finite: feeding a stored `NaN`/`±∞`
tangent into the blend is NOT modelled (the real program then propagates the
special value through `bezier_interpolate` and the `NaN`-preserving
`f32::clamp`; see the C6 evidence theorem, which exhibits a reachable curve
where exactly that happens).  No theorem in this file draws a range
conclusion for `sample` through a non-finite tangent. -/
def Curve.sample_local_nocheck (c : Curve) (index : Nat) (local_offset : ℚ) : ℚ :=
  let a := c.points.getD index default
  let b := c.points.getD (index + 1) default
  let d := b.pos.x - a.pos.x
  if |d| < EPSILON then b.pos.y
  else
    let t := local_offset / d
    let d3 := d / 3
    let yac := a.pos.y + d3 * a.right_tan.val
    let ybc := b.pos.y - d3 * b.left_tan.val
    clamp01 (bezier_interpolate a.pos.y yac ybc b.pos.y t)

/-- `Curve::sample(offset)`. -/
def Curve.sample (c : Curve) (offset : ℚ) : ℚ :=
  if c.points.length = 0 then 0
  else if c.points.length = 1 then (c.points.getD 0 default).pos.y
  else
    let i := c.get_index offset
    if i = c.points.length - 1 then (c.points.getD i default).pos.y
    else
      let localOff := offset - (c.points.getD i default).pos.x
      if i = 0 ∧ localOff ≤ 0 then (c.points.getD 0 default).pos.y
      else c.sample_local_nocheck i localOff

/-- `Curve::point_positions()`. -/
def Curve.point_positions (c : Curve) : List Q2 :=
  c.points.map (fun p => p.pos)

/-- The tangent slope computed by `update_auto_tangents`:
`let v = (neighbor.pos - p.pos).normalized(); v.y / v.x`.
Normalization divides both components by the same factor `‖v‖`, so in exact
arithmetic the ratio equals `Δy / Δx` (lemma `autoSlope_normalized_ratio`
below).

The finiteness certificate is conservative about `f32`: it is `true` only
when `2⁻⁶⁰ ≤ |Δx|` and `|Δy / Δx| ≤ 2¹⁰⁰`.  Under those bounds every
intermediate of the `f32` computation — the coordinate subtraction, the
length of `v` (whether computed as `hypot` or as `sqrt(x² + y²)`: the squares
stay far above the subnormal range), the two normalization divisions, and the
final ratio — stays in the normal range with relative error around `2⁻²⁰`,
and the result magnitude is bounded by about `√2 · 2¹⁰⁰`, a factor `≈ 2²⁷`
below the `f32` overflow threshold `≈ 2¹²⁸`; so the stored tangent is
certainly an ordinary number.  When `Δx = 0` the `f32` result is certainly
`±∞` (or `NaN` for coincident points); in the remaining region
(`0 < |Δx| < 2⁻⁶⁰`, or slope beyond `2¹⁰⁰`) the division can overflow to
`±∞`, so the flag stays `false` there as well. -/
def autoSlope (q p : Q2) : FVal :=
  ⟨(q.y - p.y) / (q.x - p.x),
   decide (1 / 2 ^ 60 ≤ |q.x - p.x| ∧ |(q.y - p.y) / (q.x - p.x)| ≤ 2 ^ 100)⟩

/-- The working copy `p` of `points[index]` in `update_auto_tangents`, after
its `Linear` sides (where a neighbour exists) have been recomputed.  All reads
are from the original list. -/
def tangentUpdatedPoint (l : List Point) (index : Nat) : Point :=
  let p0 := l.getD index default
  let prev := l.getD (index - 1) default
  let next := l.getD (index + 1) default
  let p1 :=
    if 0 < index ∧ p0.left_mode = TangentMode.Linear then
      { p0 with left_tan := autoSlope prev.pos p0.pos }
    else p0
  if index + 1 < l.length ∧ p0.right_mode = TangentMode.Linear then
    { p1 with right_tan := autoSlope next.pos p0.pos }
  else p1

/-- The in-place writes `update_auto_tangents` performs on the two
neighbours' facing `Linear` sides (reads are from the original list: the write
at `index - 1` does not overlap the later read at `index + 1`). -/
def neighborWrites (l : List Point) (index : Nat) : List Point :=
  let p0 := l.getD index default
  let prev := l.getD (index - 1) default
  let next := l.getD (index + 1) default
  let pts1 :=
    if 0 < index ∧ prev.right_mode = TangentMode.Linear then
      l.set (index - 1) { prev with right_tan := autoSlope prev.pos p0.pos }
    else l
  if index + 1 < l.length ∧ next.left_mode = TangentMode.Linear then
    pts1.set (index + 1) { next with left_tan := autoSlope next.pos p0.pos }
  else pts1

/-- `Curve::update_auto_tangents(index)`: update the neighbours' facing
`Linear` sides in place, then write the recomputed working copy back at
`index` (the source's final `self.points[index] = p`). -/
def Curve.update_auto_tangents (c : Curve) (index : Nat) : Curve :=
  ⟨(neighborWrites c.points index).set index (tangentUpdatedPoint c.points index)⟩

/-- `Curve::add_point(point) -> usize`: clamps the position, inserts keeping
x-order, runs auto-tangent recomputation at the insertion index, and returns
that index.  Modelled as returning the pair (index, new curve). -/
def Curve.add_point (c : Curve) (point : Point) : Nat × Curve :=
  let point := { point with pos := clampPos point.pos }
  let step : Nat × List Point :=
    if c.points.length = 0 then (0, [point])
    else if c.points.length = 1 then
      let diff := point.pos.x - (c.points.getD 0 default).pos.x
      if diff > 0 then (1, c.points ++ [point])
      else (0, point :: c.points)
    else
      let i := c.get_index point.pos.x
      if i = 0 ∧ point.pos.x < (c.points.getD 0 default).pos.x then
        (0, point :: c.points)
      else (i + 1, c.points.insertIdx (i + 1) point)
  (step.1, Curve.update_auto_tangents ⟨step.2⟩ step.1)

/-- `usize` subtraction of 1 with release-build wrapping semantics:
`0 - 1` wraps to `2^64 - 1`. -/
def usizeSub1 (n : Nat) : Nat := (n + 2 ^ 64 - 1) % 2 ^ 64

/-- `Curve::remove_point(index)`.  The guard is
`index > self.points.len() - 1`, a wrapping `usize` subtraction; on an empty
curve it wraps to `2^64 - 1`, the guard cannot fire, and `Vec::remove` panics
(in a checked build the subtraction itself already panics).  `none` models the
panic. -/
def Curve.remove_point (c : Curve) (index : Nat) : Option Curve :=
  if index > usizeSub1 c.points.length then some c
  else if index < c.points.length then some ⟨c.points.eraseIdx index⟩
  else none

/-- `Curve::clear_points()`. -/
def Curve.clear_points (_c : Curve) : Curve := ⟨[]⟩

/-- `Curve::get_position(index)`. -/
def Curve.get_position (c : Curve) (index : Nat) : Option Q2 :=
  if c.points.length ≤ index then none
  else some (c.points.getD index default).pos

/-- `Curve::set_position(index, pos)`. -/
def Curve.set_position (c : Curve) (index : Nat) (pos : Q2) : Curve :=
  let pos := clampPos pos
  if c.points.length ≤ index then c
  else if 0 < index ∧ (c.points.getD (index - 1) default).pos.x > pos.x then c
  else if index < c.points.length - 1 ∧ (c.points.getD (index + 1) default).pos.x < pos.x then c
  else
    Curve.update_auto_tangents
      ⟨c.points.set index { c.points.getD index default with pos := pos }⟩ index

/-- `Curve::get_left_tan(index)`. -/
def Curve.get_left_tan (c : Curve) (index : Nat) : Option FVal :=
  if c.points.length ≤ index then none
  else some (c.points.getD index default).left_tan

/-- `Curve::set_left_tan(index, tangent)`: rejects out-of-range indices and
non-finite (`NaN`/`±∞`) values; otherwise stores the value and forces the
side's mode to `Free`. -/
def Curve.set_left_tan (c : Curve) (index : Nat) (tangent : FVal) : Curve :=
  if c.points.length ≤ index ∨ tangent.finite = false then c
  else
    ⟨c.points.set index
      { c.points.getD index default with
        left_tan := tangent, left_mode := TangentMode.Free }⟩

/-- `Curve::get_right_tan(index)`. -/
def Curve.get_right_tan (c : Curve) (index : Nat) : Option FVal :=
  if c.points.length ≤ index then none
  else some (c.points.getD index default).right_tan

/-- `Curve::set_right_tan(index, tangent)`. -/
def Curve.set_right_tan (c : Curve) (index : Nat) (tangent : FVal) : Curve :=
  if c.points.length ≤ index ∨ tangent.finite = false then c
  else
    ⟨c.points.set index
      { c.points.getD index default with
        right_tan := tangent, right_mode := TangentMode.Free }⟩

/-- `Curve::index_is_first_or_last(index)` (release-build `usize` wrap on the
empty curve). -/
def Curve.index_is_first_or_last (c : Curve) (index : Nat) : Bool :=
  index == 0 || index == usizeSub1 c.points.length

/-- `Curve::index_is_first(index)`. -/
def Curve.index_is_first (_c : Curve) (index : Nat) : Bool :=
  index == 0

/-- `Curve::index_is_last(index)` (release-build `usize` wrap on the empty
curve). -/
def Curve.index_is_last (c : Curve) (index : Nat) : Bool :=
  index == usizeSub1 c.points.length

/-! ## Derived predicates, reachability, and concrete curves -/

/-- The sort invariant: x coordinates are non-decreasing along the list. -/
def SortedX (l : List Point) : Prop :=
  List.Pairwise (fun p q => p.pos.x ≤ q.pos.x) l

instance : DecidablePred SortedX := fun l =>
  inferInstanceAs (Decidable (List.Pairwise _ l))

/-- Every stored position lies in the unit square. -/
def InRange (l : List Point) : Prop :=
  ∀ p ∈ l, 0 ≤ p.pos.x ∧ p.pos.x ≤ 1 ∧ 0 ≤ p.pos.y ∧ p.pos.y ≤ 1

instance : DecidablePred InRange := fun l =>
  inferInstanceAs (Decidable (∀ p ∈ l, _ ∧ _ ∧ _ ∧ _))

/-- Every stored tangent models an ordinary (finite) float. -/
def FiniteTans (l : List Point) : Prop :=
  ∀ p ∈ l, p.left_tan.finite = true ∧ p.right_tan.finite = true

instance : DecidablePred FiniteTans := fun l =>
  inferInstanceAs (Decidable (∀ p ∈ l, _ ∧ _))

/-- Point `i` of `l` is tamely separated from each existing neighbour: the
x coordinates are at least `2⁻⁶⁰` apart and the connecting slope has
magnitude at most `2¹⁰⁰`.  Under these bounds the auto-tangent recomputation
at `i` divides by widths for which the `f32` result is certainly an ordinary
number (see `autoSlope`); for positions inside `[0,1]` the slope bound is
implied by the width bound, so this is only a mild strengthening of
"distinct x". -/
def SepAt (l : List Point) (i : Nat) : Prop :=
  (0 < i →
    1 / 2 ^ 60 ≤ |(l.getD (i - 1) default).pos.x - (l.getD i default).pos.x| ∧
    |((l.getD (i - 1) default).pos.y - (l.getD i default).pos.y) /
      ((l.getD (i - 1) default).pos.x - (l.getD i default).pos.x)| ≤ 2 ^ 100) ∧
  (i + 1 < l.length →
    1 / 2 ^ 60 ≤ |(l.getD (i + 1) default).pos.x - (l.getD i default).pos.x| ∧
    |((l.getD (i + 1) default).pos.y - (l.getD i default).pos.y) /
      ((l.getD (i + 1) default).pos.x - (l.getD i default).pos.x)| ≤ 2 ^ 100)

instance : ∀ l i, Decidable (SepAt l i) := fun _ _ =>
  inferInstanceAs (Decidable (_ ∧ _))

/-- Curves reachable from the empty curve or `Curve::linear()` through the
public interface.  `Point`'s fields are private and `Point::from_pos` is its
only public constructor, so `add_point` only ever receives default-tangent
points; `remove_point` contributes a new state only when it does not panic. -/
inductive Reachable : Curve → Prop where
  | empty : Reachable ⟨[]⟩
  | linear : Reachable Curve.linear
  | add {c : Curve} (q : Q2) : Reachable c → Reachable (c.add_point (Point.from_pos q)).2
  | remove {c c' : Curve} (i : Nat) : Reachable c → c.remove_point i = some c' → Reachable c'
  | clear {c : Curve} : Reachable c → Reachable c.clear_points
  | setPos {c : Curve} (i : Nat) (q : Q2) : Reachable c → Reachable (c.set_position i q)
  | setLeft {c : Curve} (i : Nat) (t : FVal) : Reachable c → Reachable (c.set_left_tan i t)
  | setRight {c : Curve} (i : Nat) (t : FVal) : Reachable c → Reachable (c.set_right_tan i t)

/-- Reachability restricted so that whenever `add_point` or an effective
`set_position` triggers auto-tangent recomputation at an index, that point is
tamely separated from its neighbours there (x at least `2⁻⁶⁰` apart, slopes
at most `2¹⁰⁰` in magnitude): no recomputed division can then produce a
`NaN`/`±∞` or overflow in `f32`. -/
inductive ReachableSep : Curve → Prop where
  | empty : ReachableSep ⟨[]⟩
  | linear : ReachableSep Curve.linear
  | add {c : Curve} (q : Q2) : ReachableSep c →
      SepAt (c.add_point (Point.from_pos q)).2.points (c.add_point (Point.from_pos q)).1 →
      ReachableSep (c.add_point (Point.from_pos q)).2
  | remove {c c' : Curve} (i : Nat) : ReachableSep c → c.remove_point i = some c' →
      ReachableSep c'
  | clear {c : Curve} : ReachableSep c → ReachableSep c.clear_points
  | setPos {c : Curve} (i : Nat) (q : Q2) : ReachableSep c →
      (c.set_position i q = c ∨ SepAt (c.set_position i q).points i) →
      ReachableSep (c.set_position i q)
  | setLeft {c : Curve} (i : Nat) (t : FVal) : ReachableSep c →
      ReachableSep (c.set_left_tan i t)
  | setRight {c : Curve} (i : Nat) (t : FVal) : ReachableSep c →
      ReachableSep (c.set_right_tan i t)

/-- `add_point` applied to the empty curve three times: `(1,1)`, then
`(1/2,0)` (prepended), then `(1/2,1)` (inserted between the equal-x first
point and the last).  Result: positions `[(1/2,0), (1/2,1), (1,1)]` — the
first two points share `x = 1/2`, and the auto-tangent recomputation at the
insertion divided by `Δx = 0`. -/
def cexDupFront : Curve :=
  ((((Curve.add_point ⟨[]⟩ (Point.from_pos ⟨1, 1⟩)).2.add_point
      (Point.from_pos ⟨1/2, 0⟩)).2).add_point (Point.from_pos ⟨1/2, 1⟩)).2

/-- The same construction, used as the reachable witness of a non-finite
auto-computed tangent (claim C9's counterexample). -/
def badTanCurve : Curve :=
  ((((Curve.add_point ⟨[]⟩ (Point.from_pos ⟨1, 1⟩)).2.add_point
      (Point.from_pos ⟨1/2, 0⟩)).2).add_point (Point.from_pos ⟨1/2, 1⟩)).2

/-- `Curve::linear()` with `(1/2,1/2)` added in the middle, then the middle
point moved to `(1, 1/2)` — `set_position` accepts the move because its x
equals (does not exceed) the right neighbour's x, leaving points 1 and 2 with
the same x coordinate. -/
def dupXCurve : Curve :=
  ((Curve.linear.add_point (Point.from_pos ⟨1/2, 1/2⟩)).2).set_position 1 ⟨1, 1/2⟩

/-- Three points `(0,0)`, `(1/2,1/2)`, `(1,1)` with all-`Linear` modes (the
set-up of claim C4's concrete propagation example). -/
def threePt : Curve :=
  (Curve.linear.add_point (Point.from_pos ⟨1/2, 1/2⟩)).2

/-- `threePt` with the middle point moved to `(1/2, 4/5)`. -/
def threePtMoved : Curve :=
  threePt.set_position 1 ⟨1/2, 4/5⟩

/-- The curve obtained by a sequence of `add_point` calls starting from the
empty curve. -/
def addPointSeq (ps : List Point) : Curve :=
  ps.foldl (fun c p => (c.add_point p).2) ⟨[]⟩

/-- `add_point (1,1); add_point (1/2,1); add_point (1/2,1)`: the third call
inserts a point *coincident* with the first, and the auto-tangent
recomputation normalizes the zero vector (`0/0` in `f32`, i.e. `NaN`) and
stores it into `points[0].right_tan` (both sides `Linear`).  Positions:
`[(1/2,1), (1/2,1), (1,1)]`. -/
def nanLeakPre : Curve :=
  ((((Curve.add_point ⟨[]⟩ (Point.from_pos ⟨1, 1⟩)).2.add_point
      (Point.from_pos ⟨1/2, 1⟩)).2).add_point (Point.from_pos ⟨1/2, 1⟩)).2

/-- `nanLeakPre` after `remove_point(1)`: the duplicate is gone, but
`remove_point` runs no tangent recomputation, so the stale non-finite
`points[0].right_tan` now sits beside a segment of width `1/2`.  Sampling
inside that segment feeds the non-finite tangent into the Bézier blend. -/
def nanLeakCurve : Curve :=
  ⟨nanLeakPre.points.eraseIdx 1⟩

/-! ## Basic helper lemmas -/

lemma clamp01_nonneg (v : ℚ) : 0 ≤ clamp01 v := le_max_left _ _

lemma clamp01_le_one (v : ℚ) : clamp01 v ≤ 1 :=
  max_le (by norm_num) (min_le_right v 1)

lemma clampPos_mem (q : Q2) :
    0 ≤ (clampPos q).x ∧ (clampPos q).x ≤ 1 ∧ 0 ≤ (clampPos q).y ∧ (clampPos q).y ≤ 1 :=
  ⟨clamp01_nonneg _, clamp01_le_one _, clamp01_nonneg _, clamp01_le_one _⟩

lemma getD_mem {α : Type} {l : List α} {i : Nat} (h : i < l.length) (d : α) :
    l.getD i d ∈ l := by
  rw [List.getD_eq_getElem?_getD, List.getElem?_eq_getElem h]
  exact List.getElem_mem h

lemma getD_set_ne {α : Type} {l : List α} {i j : Nat} (h : i ≠ j) (a d : α) :
    (l.set i a).getD j d = l.getD j d := by
  simp [List.getD_eq_getElem?_getD, List.getElem?_set, h]

lemma getD_set_self {α : Type} {l : List α} {i : Nat} (h : i < l.length) (a d : α) :
    (l.set i a).getD i d = a := by
  simp [List.getD_eq_getElem?_getD, List.getElem?_set, h]

lemma map_set_pos {l : List Point} {a : Nat} {q : Point}
    (h : q.pos = (l.getD a default).pos) :
    (l.set a q).map (fun p => p.pos) = l.map (fun p => p.pos) := by
  apply List.ext_getElem?
  intro n
  simp only [List.getElem?_map, List.getElem?_set]
  by_cases han : a = n
  · subst han
    by_cases hlt : a < l.length
    · simp only [hlt, if_true, if_pos rfl, List.getElem?_eq_getElem hlt]
      show some q.pos = some (l[a].pos)
      rw [h, List.getD_eq_getElem?_getD, List.getElem?_eq_getElem hlt]
      rfl
    · have hn : l[a]? = none := List.getElem?_eq_none (by omega)
      simp [hn, hlt]
  · simp [han]

lemma tangentUpdatedPoint_pos (l : List Point) (i : Nat) :
    (tangentUpdatedPoint l i).pos = (l.getD i default).pos := by
  simp only [tangentUpdatedPoint]
  split_ifs <;> rfl

lemma neighborWrites_length (l : List Point) (i : Nat) :
    (neighborWrites l i).length = l.length := by
  simp only [neighborWrites]
  split_ifs <;> simp

lemma neighborWrites_getD_self (l : List Point) (i : Nat) :
    (neighborWrites l i).getD i default = l.getD i default := by
  simp only [neighborWrites]
  split_ifs with hb ha ha2
  · obtain ⟨hi1, -⟩ := ha
    rw [getD_set_ne (by omega), getD_set_ne (by omega)]
  · rw [getD_set_ne (by omega)]
  · obtain ⟨hi1, -⟩ := ha2
    rw [getD_set_ne (by omega)]
  · rfl

lemma neighborWrites_map_pos (l : List Point) (i : Nat) :
    (neighborWrites l i).map (fun p => p.pos) = l.map (fun p => p.pos) := by
  simp only [neighborWrites]
  split_ifs with hb ha ha2
  · obtain ⟨hi1, -⟩ := ha
    refine Eq.trans (map_set_pos ?_) (map_set_pos rfl)
    rw [getD_set_ne (by omega)]
  · exact map_set_pos rfl
  · exact map_set_pos rfl
  · rfl

lemma update_map_pos (l : List Point) (i : Nat) :
    (Curve.update_auto_tangents ⟨l⟩ i).points.map (fun p => p.pos) =
      l.map (fun p => p.pos) := by
  show ((neighborWrites l i).set i (tangentUpdatedPoint l i)).map (fun p => p.pos) = _
  refine Eq.trans (map_set_pos ?_) (neighborWrites_map_pos l i)
  rw [tangentUpdatedPoint_pos, neighborWrites_getD_self]

lemma update_length (l : List Point) (i : Nat) :
    (Curve.update_auto_tangents ⟨l⟩ i).points.length = l.length := by
  have := congrArg List.length (update_map_pos l i)
  simpa using this

/-! ## The binary search `get_index` -/

lemma sortedX_le {l : List Point} (hs : SortedX l) {i j : Nat}
    (hij : i ≤ j) (hj : j < l.length) :
    (l.getD i default).pos.x ≤ (l.getD j default).pos.x := by
  rcases Nat.lt_or_ge i j with hlt | hge
  · have hi : i < l.length := by omega
    rw [List.getD_eq_getElem?_getD, List.getElem?_eq_getElem hi,
        List.getD_eq_getElem?_getD, List.getElem?_eq_getElem hj]
    have := List.pairwise_iff_get.mp hs ⟨i, hi⟩ ⟨j, hj⟩ (by exact hlt)
    simpa using this
  · have heq : i = j := by omega
    subst heq
    rfl

/-- Loop invariant proof for `getIndexLoop`.  `mn` is 0 or strictly left of
`offset`; `mx` is the last index or strictly right of `offset`.  Result `i`:
it stays inside `[mn, mx]`, a positive `i` satisfies `x_i ≤ offset`, and if
`i+1` is not past the last index then `offset ≤ x_{i+1}`. -/
lemma getIndexLoop_spec (l : List Point) (offset : ℚ) (hs : SortedX l) :
    ∀ (fuel mn mx : Nat), mx - mn ≤ fuel → mn < mx → mx ≤ l.length - 1 →
      (mn = 0 ∨ (l.getD mn default).pos.x < offset) →
      (mx = l.length - 1 ∨ offset < (l.getD mx default).pos.x) →
      mn ≤ getIndexLoop l offset fuel mn mx ∧
      getIndexLoop l offset fuel mn mx ≤ mx ∧
      (1 ≤ getIndexLoop l offset fuel mn mx →
        (l.getD (getIndexLoop l offset fuel mn mx) default).pos.x ≤ offset) ∧
      (getIndexLoop l offset fuel mn mx + 1 ≤ l.length - 1 →
        offset ≤ (l.getD (getIndexLoop l offset fuel mn mx + 1) default).pos.x) := by
  intro fuel
  induction fuel with
  | zero =>
    intro mn mx hfuel hlt hmx hmn hmxinv
    exact absurd hlt (by omega)
  | succ fuel ih =>
    intro mn mx hfuel hlt hmx hmn hmxinv
    simp only [getIndexLoop]
    by_cases hguard : mx - mn > 1
    · rw [if_pos hguard]
      have hm1 : mn + 1 ≤ (mn + mx) / 2 := by omega
      have hm2 : (mn + mx) / 2 + 1 ≤ mx := by omega
      by_cases hab : (l.getD ((mn + mx) / 2) default).pos.x < offset ∧
          (l.getD ((mn + mx) / 2 + 1) default).pos.x < offset
      · rw [if_pos hab]
        obtain ⟨h1, h2, h3, h4⟩ := ih ((mn + mx) / 2) mx (by omega) (by omega) hmx
          (Or.inr hab.1) hmxinv
        exact ⟨by omega, h2, h3, h4⟩
      · rw [if_neg hab]
        by_cases ha : (l.getD ((mn + mx) / 2) default).pos.x > offset
        · rw [if_pos ha]
          obtain ⟨h1, h2, h3, h4⟩ := ih mn ((mn + mx) / 2) (by omega) (by omega)
            (by omega) hmn (Or.inr ha)
          exact ⟨h1, by omega, h3, h4⟩
        · rw [if_neg ha]
          have hax : (l.getD ((mn + mx) / 2) default).pos.x ≤ offset := not_lt.mp ha
          have hbx : offset ≤ (l.getD ((mn + mx) / 2 + 1) default).pos.x := by
            rcases not_and_or.mp hab with h | h
            · have hge : offset ≤ (l.getD ((mn + mx) / 2) default).pos.x := not_lt.mp h
              calc offset ≤ (l.getD ((mn + mx) / 2) default).pos.x := hge
                _ ≤ (l.getD ((mn + mx) / 2 + 1) default).pos.x :=
                    sortedX_le hs (by omega) (by omega)
            · exact not_lt.mp h
          exact ⟨by omega, by omega, fun _ => hax, fun _ => hbx⟩
    · rw [if_neg hguard]
      by_cases hofmx : offset > (l.getD mx default).pos.x
      · rw [if_pos hofmx]
        refine ⟨le_of_lt hlt, le_refl mx, fun _ => le_of_lt hofmx, fun hh => ?_⟩
        rcases hmxinv with h | h
        · omega
        · exact absurd (lt_trans h hofmx) (lt_irrefl _)
      · rw [if_neg hofmx]
        refine ⟨le_refl mn, le_of_lt hlt, fun h1 => ?_, fun _ => ?_⟩
        · rcases hmn with h0 | hlt2
          · omega
          · exact le_of_lt hlt2
        · have hmx1 : mn + 1 = mx := by omega
          rw [hmx1]
          exact not_lt.mp hofmx

/-- Specification of `get_index` on a sorted curve with at least two
points. -/
lemma get_index_spec (c : Curve) (x : ℚ) (hs : SortedX c.points)
    (h2 : 2 ≤ c.points.length) :
    c.get_index x ≤ c.points.length - 1 ∧
    (1 ≤ c.get_index x → (c.points.getD (c.get_index x) default).pos.x ≤ x) ∧
    (c.get_index x + 1 ≤ c.points.length - 1 →
      x ≤ (c.points.getD (c.get_index x + 1) default).pos.x) := by
  have h := getIndexLoop_spec c.points x hs c.points.length 0 (c.points.length - 1)
    (by omega) (by omega) (le_refl _) (Or.inl rfl) (Or.inl rfl)
  exact ⟨h.2.1, h.2.2.1, h.2.2.2⟩

lemma get_index_low {c : Curve} {x : ℚ} (hs : SortedX c.points)
    (h2 : 2 ≤ c.points.length)
    (hx : x < (c.points.getD 0 default).pos.x ∨
      (x = (c.points.getD 0 default).pos.x ∧
        (c.points.getD 0 default).pos.x < (c.points.getD 1 default).pos.x)) :
    c.get_index x = 0 := by
  obtain ⟨hb, hp2, hp3⟩ := get_index_spec c x hs h2
  by_contra hne
  have h1 : 1 ≤ c.get_index x := by omega
  have hle := hp2 h1
  rcases hx with h | ⟨heq, hstrict⟩
  · have hmono : (c.points.getD 0 default).pos.x ≤
        (c.points.getD (c.get_index x) default).pos.x :=
      sortedX_le hs (by omega) (by omega)
    linarith
  · have hmono : (c.points.getD 1 default).pos.x ≤
        (c.points.getD (c.get_index x) default).pos.x :=
      sortedX_le hs h1 (by omega)
    linarith

lemma get_index_high {c : Curve} {x : ℚ} (hs : SortedX c.points)
    (h2 : 2 ≤ c.points.length)
    (hx : (c.points.getD (c.points.length - 1) default).pos.x < x) :
    c.get_index x = c.points.length - 1 := by
  obtain ⟨hb, hp2, hp3⟩ := get_index_spec c x hs h2
  by_contra hne
  have hlt : c.get_index x + 1 ≤ c.points.length - 1 := by omega
  have hup := hp3 hlt
  have hle : (c.points.getD (c.get_index x + 1) default).pos.x ≤
      (c.points.getD (c.points.length - 1) default).pos.x :=
    sortedX_le hs hlt (by omega)
  linarith

/-! ## Branch lemmas for `sample` -/

lemma sample_empty {c : Curve} (h : c.points.length = 0) (x : ℚ) :
    c.sample x = 0 := by
  simp only [Curve.sample]
  rw [if_pos h]

lemma sample_single {c : Curve} (h : c.points.length = 1) (x : ℚ) :
    c.sample x = (c.points.getD 0 default).pos.y := by
  simp only [Curve.sample]
  rw [if_neg (by omega), if_pos h]

lemma sample_low {c : Curve} {x : ℚ} (hs : SortedX c.points)
    (h2 : 2 ≤ c.points.length)
    (hx : x < (c.points.getD 0 default).pos.x ∨
      (x = (c.points.getD 0 default).pos.x ∧
        (c.points.getD 0 default).pos.x < (c.points.getD 1 default).pos.x)) :
    c.sample x = (c.points.getD 0 default).pos.y := by
  have hi := get_index_low hs h2 hx
  have hxle : x ≤ (c.points.getD 0 default).pos.x := by
    rcases hx with h | ⟨h, _⟩
    · exact le_of_lt h
    · exact le_of_eq h
  simp only [Curve.sample]
  rw [if_neg (by omega), if_neg (by omega), hi, if_neg (by omega),
    if_pos ⟨rfl, by linarith⟩]

lemma sample_high {c : Curve} {x : ℚ} (hs : SortedX c.points)
    (h2 : 2 ≤ c.points.length)
    (hx : (c.points.getD (c.points.length - 1) default).pos.x < x) :
    c.sample x = (c.points.getD (c.points.length - 1) default).pos.y := by
  have hi := get_index_high hs h2 hx
  simp only [Curve.sample]
  rw [if_neg (by omega), if_neg (by omega), hi, if_pos rfl]

lemma sample_interior {c : Curve} {x : ℚ} (h2 : 2 ≤ c.points.length)
    (hni : c.get_index x ≠ c.points.length - 1)
    (hn0 : ¬(c.get_index x = 0 ∧ x ≤ (c.points.getD 0 default).pos.x)) :
    c.sample x =
      c.sample_local_nocheck (c.get_index x)
        (x - (c.points.getD (c.get_index x) default).pos.x) := by
  simp only [Curve.sample]
  rw [if_neg (by omega), if_neg (by omega), if_neg hni, if_neg ?hc]
  case hc =>
    rintro ⟨h0, hle⟩
    exact hn0 ⟨h0, by rw [← h0]; linarith [sub_nonpos.mp hle]⟩

/-! ## Insertion and sortedness -/

lemma mem_insertIdx_any {α : Type} {a p : α} :
    ∀ {k : Nat} {l : List α}, a ∈ l.insertIdx k p → a = p ∨ a ∈ l := by
  intro k
  induction k with
  | zero =>
    intro l h
    rw [List.insertIdx_zero] at h
    exact List.mem_cons.mp h
  | succ k ih =>
    intro l h
    cases l with
    | nil =>
      rw [List.insertIdx_succ_nil] at h
      exact Or.inr h
    | cons b t =>
      rw [List.insertIdx_succ_cons] at h
      rcases List.mem_cons.mp h with h | h
      · exact Or.inr (List.mem_cons.mpr (Or.inl h))
      · rcases ih h with h | h
        · exact Or.inl h
        · exact Or.inr (List.mem_cons.mpr (Or.inr h))

lemma map_insertIdx {α β : Type} (f : α → β) :
    ∀ (k : Nat) (l : List α) (p : α),
      (l.insertIdx k p).map f = (l.map f).insertIdx k (f p) := by
  intro k
  induction k with
  | zero =>
    intro l p
    rw [List.insertIdx_zero, List.insertIdx_zero, List.map_cons]
  | succ k ih =>
    intro l p
    cases l with
    | nil => simp [List.insertIdx_succ_nil]
    | cons b t =>
      rw [List.insertIdx_succ_cons, List.map_cons, List.map_cons,
        List.insertIdx_succ_cons, ih]

lemma sortedX_insertIdx :
    ∀ {k : Nat} {l : List Point} {p : Point},
      SortedX l → k ≤ l.length →
      (1 ≤ k → (l.getD (k - 1) default).pos.x ≤ p.pos.x) →
      (k < l.length → p.pos.x ≤ (l.getD k default).pos.x) →
      SortedX (l.insertIdx k p) := by
  intro k
  induction k with
  | zero =>
    intro l p hs hk hlo hhi
    rw [List.insertIdx_zero]
    refine List.pairwise_cons.mpr ⟨?_, hs⟩
    intro q hq
    cases l with
    | nil => exact absurd hq (List.not_mem_nil q)
    | cons b t =>
      have hpb : p.pos.x ≤ b.pos.x := hhi (by simp)
      rcases List.mem_cons.mp hq with h | h
      · subst h; exact hpb
      · exact le_trans hpb ((List.pairwise_cons.mp hs).1 q h)
  | succ k ih =>
    intro l p hs hk hlo hhi
    cases l with
    | nil => simp at hk
    | cons b t =>
      rw [List.insertIdx_succ_cons]
      obtain ⟨hb, ht⟩ := List.pairwise_cons.mp hs
      have hk2 : k ≤ t.length := by simpa using hk
      refine List.pairwise_cons.mpr ⟨?_, ?_⟩
      · intro q hq
        rcases mem_insertIdx_any hq with h | h
        · subst h
          have hlo2 := hlo (by omega)
          rcases Nat.eq_zero_or_pos k with h0 | h0
          · subst h0; exact hlo2
          · have hbk : b.pos.x ≤ ((b :: t).getD k default).pos.x :=
              @sortedX_le (b :: t) hs 0 k (by omega) (by simp; omega)
            exact le_trans hbk hlo2
        · exact hb q h
      · refine ih ht (by simpa using hk) ?_ ?_
        · intro h1
          have hlo2 := hlo (by omega)
          have heq : (b :: t).getD k default = t.getD (k - 1) default := by
            cases k with
            | zero => omega
            | succ k2 => rfl
          rw [← heq]
          exact hlo2
        · intro hkt
          exact hhi (by simp; omega)

/-! ## Characterization of `add_point` -/

lemma sortedX_of_map_pos_eq {l1 l2 : List Point}
    (h : l1.map (fun p => p.pos) = l2.map (fun p => p.pos)) (hs : SortedX l2) :
    SortedX l1 := by
  have h2 : List.Pairwise (fun u v : Q2 => u.x ≤ v.x) (l2.map (fun p => p.pos)) := by
    rw [List.pairwise_map]
    exact hs
  rw [← h] at h2
  exact (@List.pairwise_map Point Q2 (fun p => p.pos) (fun u v => u.x ≤ v.x) l1).mp h2

/-- `add_point` always inserts the clamped point at the returned index, which
is at most the old length, lies weakly right of its left neighbour and weakly
left of its right neighbour (on a sorted curve), and then runs
`update_auto_tangents` there. -/
lemma add_point_shape (c : Curve) (p : Point) (hs : SortedX c.points) :
    (c.add_point p).1 ≤ c.points.length ∧
    (1 ≤ (c.add_point p).1 →
      (c.points.getD ((c.add_point p).1 - 1) default).pos.x ≤ (clampPos p.pos).x) ∧
    ((c.add_point p).1 < c.points.length →
      (clampPos p.pos).x ≤ (c.points.getD ((c.add_point p).1) default).pos.x) ∧
    (c.add_point p).2 =
      Curve.update_auto_tangents
        ⟨c.points.insertIdx (c.add_point p).1 { p with pos := clampPos p.pos }⟩
        (c.add_point p).1 := by
  rcases c with ⟨pts⟩
  cases pts with
  | nil =>
    refine ⟨Nat.le_refl 0, fun h => ?_, fun h => ?_, rfl⟩
    · exact absurd (show (1 : Nat) ≤ 0 from h) (by omega)
    · exact absurd (show (0 : Nat) < 0 from h) (by omega)
  | cons a tl =>
    cases tl with
    | nil =>
      simp only [Curve.add_point]
      rw [if_neg (show ¬(([a] : List Point).length = 0) by simp),
          if_pos (show ([a] : List Point).length = 1 by simp)]
      by_cases hd : (clampPos p.pos).x - (([a] : List Point).getD 0 default).pos.x > 0
      · rw [if_pos hd]
        refine ⟨by simp, fun _ => ?_, fun h => ?_, rfl⟩
        · show (([a] : List Point).getD 0 default).pos.x ≤ (clampPos p.pos).x
          linarith
        · simp at h
      · rw [if_neg hd]
        refine ⟨by simp, fun h => absurd h (by omega), fun _ => ?_, rfl⟩
        show (clampPos p.pos).x ≤ (([a] : List Point).getD 0 default).pos.x
        linarith [not_lt.mp hd]
    | cons b t =>
      simp only [Curve.add_point]
      rw [if_neg (show ¬((a :: b :: t).length = 0) by simp),
          if_neg (show ¬((a :: b :: t).length = 1) by simp)]
      have hlen : 2 ≤ (Curve.mk (a :: b :: t)).points.length := by simp
      obtain ⟨hbnd, hp2, hp3⟩ :=
        get_index_spec ⟨a :: b :: t⟩ (clampPos p.pos).x hs hlen
      have hbnd2 : Curve.get_index ⟨a :: b :: t⟩ (clampPos p.pos).x ≤ t.length + 1 := hbnd
      have hp33 : Curve.get_index ⟨a :: b :: t⟩ (clampPos p.pos).x + 1 ≤ t.length + 1 →
          (clampPos p.pos).x ≤ ((a :: b :: t).getD
            (Curve.get_index ⟨a :: b :: t⟩ (clampPos p.pos).x + 1) default).pos.x := hp3
      by_cases hpre : Curve.get_index ⟨a :: b :: t⟩ (clampPos p.pos).x = 0 ∧
          (clampPos p.pos).x < ((a :: b :: t).getD 0 default).pos.x
      · rw [if_pos hpre]
        refine ⟨by simp, fun h => ?_, fun _ => ?_, rfl⟩
        · exact absurd (show (1 : Nat) ≤ 0 from h) (by omega)
        · show (clampPos p.pos).x ≤ ((a :: b :: t).getD 0 default).pos.x
          exact le_of_lt hpre.2
      · rw [if_neg hpre]
        refine ⟨?_, fun _ => ?_, fun hlt => ?_, rfl⟩
        · show Curve.get_index ⟨a :: b :: t⟩ (clampPos p.pos).x + 1 ≤ t.length + 2
          omega
        · show ((a :: b :: t).getD
            (Curve.get_index ⟨a :: b :: t⟩ (clampPos p.pos).x + 1 - 1) default).pos.x ≤
            (clampPos p.pos).x
          rcases Nat.eq_zero_or_pos (Curve.get_index ⟨a :: b :: t⟩ (clampPos p.pos).x)
            with h0 | hpos
          · rw [h0]
            rcases not_and_or.mp hpre with h | h
            · exact absurd h0 h
            · exact not_lt.mp h
          · exact hp2 hpos
        · show (clampPos p.pos).x ≤ ((a :: b :: t).getD
            (Curve.get_index ⟨a :: b :: t⟩ (clampPos p.pos).x + 1) default).pos.x
          have hlt2 : Curve.get_index ⟨a :: b :: t⟩ (clampPos p.pos).x + 1 <
              t.length + 2 := hlt
          exact hp33 (by omega)

lemma add_point_pos_spec (c : Curve) (p : Point) (hs : SortedX c.points) :
    (c.add_point p).1 ≤ c.points.length ∧
    (c.add_point p).2.point_positions =
      c.point_positions.insertIdx (c.add_point p).1 (clampPos p.pos) := by
  obtain ⟨h1, _, _, h4⟩ := add_point_shape c p hs
  refine ⟨h1, ?_⟩
  rw [Curve.point_positions, Curve.point_positions, h4, update_map_pos,
    map_insertIdx]

lemma add_point_sorted (c : Curve) (p : Point) (hs : SortedX c.points) :
    SortedX (c.add_point p).2.points := by
  obtain ⟨h1, h2, h3, h4⟩ := add_point_shape c p hs
  rw [h4]
  have hins : SortedX (c.points.insertIdx (c.add_point p).1
      { p with pos := clampPos p.pos }) :=
    sortedX_insertIdx hs h1 h2 h3
  exact sortedX_of_map_pos_eq (update_map_pos _ _) hins

/-! ## Pointwise characterization of `update_auto_tangents` -/

lemma tangentUpdatedPoint_left_mode (l : List Point) (i : Nat) :
    (tangentUpdatedPoint l i).left_mode = (l.getD i default).left_mode := by
  simp only [tangentUpdatedPoint]
  split_ifs <;> rfl

lemma tangentUpdatedPoint_right_mode (l : List Point) (i : Nat) :
    (tangentUpdatedPoint l i).right_mode = (l.getD i default).right_mode := by
  simp only [tangentUpdatedPoint]
  split_ifs <;> rfl

lemma tangentUpdatedPoint_left_tan (l : List Point) (i : Nat) :
    (tangentUpdatedPoint l i).left_tan =
      (if 0 < i ∧ (l.getD i default).left_mode = TangentMode.Linear then
        autoSlope (l.getD (i - 1) default).pos (l.getD i default).pos
      else (l.getD i default).left_tan) := by
  simp only [tangentUpdatedPoint]
  split_ifs <;> rfl

lemma tangentUpdatedPoint_right_tan (l : List Point) (i : Nat) :
    (tangentUpdatedPoint l i).right_tan =
      (if i + 1 < l.length ∧ (l.getD i default).right_mode = TangentMode.Linear then
        autoSlope (l.getD (i + 1) default).pos (l.getD i default).pos
      else (l.getD i default).right_tan) := by
  simp only [tangentUpdatedPoint]
  split_ifs <;> rfl

lemma update_getD_self (l : List Point) (i : Nat) (h : i < l.length) :
    (Curve.update_auto_tangents ⟨l⟩ i).points.getD i default =
      tangentUpdatedPoint l i := by
  show ((neighborWrites l i).set i (tangentUpdatedPoint l i)).getD i default = _
  rw [getD_set_self (by rw [neighborWrites_length]; omega)]

lemma update_getD_prev (l : List Point) (i : Nat) (h0 : 0 < i) (h : i < l.length) :
    (Curve.update_auto_tangents ⟨l⟩ i).points.getD (i - 1) default =
      (if (l.getD (i - 1) default).right_mode = TangentMode.Linear then
        { l.getD (i - 1) default with
          right_tan := autoSlope (l.getD (i - 1) default).pos (l.getD i default).pos }
      else l.getD (i - 1) default) := by
  show ((neighborWrites l i).set i (tangentUpdatedPoint l i)).getD (i - 1) default = _
  rw [getD_set_ne (by omega)]
  simp only [neighborWrites]
  by_cases hb : i + 1 < l.length ∧ (l.getD (i + 1) default).left_mode = TangentMode.Linear
  all_goals by_cases hm : (l.getD (i - 1) default).right_mode = TangentMode.Linear
  · rw [if_pos hb, getD_set_ne (by omega),
      if_pos (show 0 < i ∧ (l.getD (i - 1) default).right_mode = TangentMode.Linear from
        ⟨h0, hm⟩),
      if_pos hm, getD_set_self (by omega)]
  · rw [if_pos hb, getD_set_ne (by omega),
      if_neg (show ¬(0 < i ∧ (l.getD (i - 1) default).right_mode = TangentMode.Linear) from
        fun hc => hm hc.2),
      if_neg hm]
  · rw [if_neg hb,
      if_pos (show 0 < i ∧ (l.getD (i - 1) default).right_mode = TangentMode.Linear from
        ⟨h0, hm⟩),
      if_pos hm, getD_set_self (by omega)]
  · rw [if_neg hb,
      if_neg (show ¬(0 < i ∧ (l.getD (i - 1) default).right_mode = TangentMode.Linear) from
        fun hc => hm hc.2),
      if_neg hm]

lemma update_getD_next (l : List Point) (i : Nat) (h1 : i + 1 < l.length) :
    (Curve.update_auto_tangents ⟨l⟩ i).points.getD (i + 1) default =
      (if (l.getD (i + 1) default).left_mode = TangentMode.Linear then
        { l.getD (i + 1) default with
          left_tan := autoSlope (l.getD (i + 1) default).pos (l.getD i default).pos }
      else l.getD (i + 1) default) := by
  show ((neighborWrites l i).set i (tangentUpdatedPoint l i)).getD (i + 1) default = _
  rw [getD_set_ne (by omega)]
  simp only [neighborWrites]
  by_cases hm : (l.getD (i + 1) default).left_mode = TangentMode.Linear
  · rw [if_pos (show i + 1 < l.length ∧ (l.getD (i + 1) default).left_mode =
        TangentMode.Linear from ⟨h1, hm⟩),
      if_pos hm, getD_set_self (by split_ifs <;> simpa using h1)]
  · rw [if_neg (show ¬(i + 1 < l.length ∧ (l.getD (i + 1) default).left_mode =
        TangentMode.Linear) from fun hc => hm hc.2),
      if_neg hm]
    by_cases ha : 0 < i ∧ (l.getD (i - 1) default).right_mode = TangentMode.Linear
    · obtain ⟨hi0, hma⟩ := ha
      rw [if_pos (show 0 < i ∧ (l.getD (i - 1) default).right_mode = TangentMode.Linear from
        ⟨hi0, hma⟩)]
      rw [getD_set_ne (by omega)]
    · rw [if_neg ha]

lemma update_getD_other (l : List Point) (i n : Nat)
    (hn1 : n ≠ i) (hn2 : n + 1 ≠ i) (hn3 : n ≠ i + 1) :
    (Curve.update_auto_tangents ⟨l⟩ i).points.getD n default = l.getD n default := by
  show ((neighborWrites l i).set i (tangentUpdatedPoint l i)).getD n default = _
  rw [getD_set_ne (by omega)]
  simp only [neighborWrites]
  by_cases hb : i + 1 < l.length ∧ (l.getD (i + 1) default).left_mode = TangentMode.Linear
  all_goals by_cases ha : 0 < i ∧ (l.getD (i - 1) default).right_mode = TangentMode.Linear
  · obtain ⟨hi0, hma⟩ := ha
    rw [if_pos hb, getD_set_ne (by omega),
      if_pos (show 0 < i ∧ (l.getD (i - 1) default).right_mode = TangentMode.Linear from
        ⟨hi0, hma⟩),
      getD_set_ne (by omega)]
  · rw [if_pos hb, getD_set_ne (by omega), if_neg ha]
  · obtain ⟨hi0, hma⟩ := ha
    rw [if_neg hb,
      if_pos (show 0 < i ∧ (l.getD (i - 1) default).right_mode = TangentMode.Linear from
        ⟨hi0, hma⟩),
      getD_set_ne (by omega)]
  · rw [if_neg hb, if_neg ha]

/-! ## Range and finiteness transfer -/

lemma inRange_of_map_pos_eq {l1 l2 : List Point}
    (h : l1.map (fun p => p.pos) = l2.map (fun p => p.pos)) (hr : InRange l2) :
    InRange l1 := by
  intro p hp
  have hmem : p.pos ∈ l2.map (fun p => p.pos) := by
    rw [← h]
    exact List.mem_map_of_mem _ hp
  rcases List.mem_map.mp hmem with ⟨q, hq, he⟩
  rw [← he]
  exact hr q hq

lemma update_inRange (l : List Point) (i : Nat) (hr : InRange l) :
    InRange (Curve.update_auto_tangents ⟨l⟩ i).points :=
  inRange_of_map_pos_eq (update_map_pos l i) hr

lemma autoSlope_finite {q p : Q2} (h1 : 1 / 2 ^ 60 ≤ |q.x - p.x|)
    (h2 : |(q.y - p.y) / (q.x - p.x)| ≤ 2 ^ 100) :
    (autoSlope q p).finite = true := by
  simp only [autoSlope, decide_eq_true_eq]
  exact ⟨h1, h2⟩

/-- Dividing both components of a vector by the same nonzero factor (as
`normalized()` does with the vector's length) does not change the ratio of
its components, so `autoSlope`'s `Δy / Δx` is exactly the source's
`v.normalized().y / v.normalized().x` in exact arithmetic. -/
lemma autoSlope_normalized_ratio (y x L : ℚ) (hL : L ≠ 0) :
    y / L / (x / L) = y / x := by
  rcases eq_or_ne x 0 with hx | hx
  · rw [hx, zero_div, div_zero, div_zero]
  · field_simp

lemma update_finiteTans (l : List Point) (i : Nat) (h : i < l.length)
    (hf : FiniteTans l) (hsep : SepAt l i) :
    FiniteTans (Curve.update_auto_tangents ⟨l⟩ i).points := by
  intro p hp
  rcases List.mem_or_eq_of_mem_set hp with hp1 | hp1
  · simp only [neighborWrites] at hp1
    split_ifs at hp1 with hb ha ha2
    · rcases List.mem_or_eq_of_mem_set hp1 with hp2 | hp2
      · rcases List.mem_or_eq_of_mem_set hp2 with hp3 | hp3
        · exact hf p hp3
        · subst hp3
          refine ⟨(hf _ (getD_mem (by omega) _)).1, ?_⟩
          exact autoSlope_finite (hsep.1 ha.1).1 (hsep.1 ha.1).2
      · subst hp2
        refine ⟨?_, (hf _ (getD_mem (by omega) _)).2⟩
        exact autoSlope_finite (hsep.2 hb.1).1 (hsep.2 hb.1).2
    · rcases List.mem_or_eq_of_mem_set hp1 with hp2 | hp2
      · exact hf p hp2
      · subst hp2
        refine ⟨?_, (hf _ (getD_mem (by omega) _)).2⟩
        exact autoSlope_finite (hsep.2 hb.1).1 (hsep.2 hb.1).2
    · rcases List.mem_or_eq_of_mem_set hp1 with hp2 | hp2
      · exact hf p hp2
      · subst hp2
        refine ⟨(hf _ (getD_mem (by omega) _)).1, ?_⟩
        exact autoSlope_finite (hsep.1 ha2.1).1 (hsep.1 ha2.1).2
    · exact hf p hp1
  · subst hp1
    constructor
    · rw [tangentUpdatedPoint_left_tan]
      split_ifs with hcl
      · exact autoSlope_finite (hsep.1 hcl.1).1 (hsep.1 hcl.1).2
      · exact (hf _ (getD_mem h _)).1
    · rw [tangentUpdatedPoint_right_tan]
      split_ifs with hcr
      · exact autoSlope_finite (hsep.2 hcr.1).1 (hsep.2 hcr.1).2
      · exact (hf _ (getD_mem h _)).2

/-! ## Branch lemmas for the mutating operations -/

lemma set_position_oob {c : Curve} {i : Nat} {q : Q2} (h : c.points.length ≤ i) :
    c.set_position i q = c := by
  simp only [Curve.set_position]
  rw [if_pos h]

lemma set_position_rej_left {c : Curve} {i : Nat} {q : Q2}
    (hin : i < c.points.length)
    (hx : 0 < i ∧ (c.points.getD (i - 1) default).pos.x > (clampPos q).x) :
    c.set_position i q = c := by
  simp only [Curve.set_position]
  rw [if_neg (by omega), if_pos hx]

lemma set_position_rej_right {c : Curve} {i : Nat} {q : Q2}
    (hin : i < c.points.length)
    (hl : ¬(0 < i ∧ (c.points.getD (i - 1) default).pos.x > (clampPos q).x))
    (hx : i < c.points.length - 1 ∧
      (c.points.getD (i + 1) default).pos.x < (clampPos q).x) :
    c.set_position i q = c := by
  simp only [Curve.set_position]
  rw [if_neg (by omega), if_neg hl, if_pos hx]

lemma set_position_store {c : Curve} {i : Nat} {q : Q2}
    (hin : i < c.points.length)
    (hl : ¬(0 < i ∧ (c.points.getD (i - 1) default).pos.x > (clampPos q).x))
    (hr : ¬(i < c.points.length - 1 ∧
      (c.points.getD (i + 1) default).pos.x < (clampPos q).x)) :
    c.set_position i q =
      Curve.update_auto_tangents
        ⟨c.points.set i { c.points.getD i default with pos := clampPos q }⟩ i := by
  simp only [Curve.set_position]
  rw [if_neg (by omega), if_neg hl, if_neg hr]

lemma set_left_tan_guard {c : Curve} {i : Nat} {t : FVal}
    (h : c.points.length ≤ i ∨ t.finite = false) :
    c.set_left_tan i t = c := by
  simp only [Curve.set_left_tan]
  rw [if_pos h]

lemma set_left_tan_store {c : Curve} {i : Nat} {t : FVal}
    (hin : i < c.points.length) (ht : t.finite = true) :
    c.set_left_tan i t =
      ⟨c.points.set i
        { c.points.getD i default with
          left_tan := t, left_mode := TangentMode.Free }⟩ := by
  simp only [Curve.set_left_tan]
  rw [if_neg ?hg]
  case hg =>
    rintro (h | h)
    · omega
    · rw [ht] at h
      exact absurd h (by simp)

lemma set_right_tan_guard {c : Curve} {i : Nat} {t : FVal}
    (h : c.points.length ≤ i ∨ t.finite = false) :
    c.set_right_tan i t = c := by
  simp only [Curve.set_right_tan]
  rw [if_pos h]

lemma set_right_tan_store {c : Curve} {i : Nat} {t : FVal}
    (hin : i < c.points.length) (ht : t.finite = true) :
    c.set_right_tan i t =
      ⟨c.points.set i
        { c.points.getD i default with
          right_tan := t, right_mode := TangentMode.Free }⟩ := by
  simp only [Curve.set_right_tan]
  rw [if_neg ?hg]
  case hg =>
    rintro (h | h)
    · omega
    · rw [ht] at h
      exact absurd h (by simp)

lemma remove_point_some {c c2 : Curve} {i : Nat}
    (h : c.remove_point i = some c2) :
    c2 = c ∨ c2.points = c.points.eraseIdx i := by
  simp only [Curve.remove_point] at h
  split_ifs at h with h1 h2
  · exact Or.inl (Option.some.inj h).symm
  · exact Or.inr (congrArg Curve.points (Option.some.inj h)).symm

/-! ## Sortedness of a guarded in-place position update -/

lemma getD_eq_get {α : Type} {l : List α} {n : Nat} (h : n < l.length) (d : α) :
    l.getD n d = l.get ⟨n, h⟩ := by
  rw [List.getD_eq_getElem?_getD, List.getElem?_eq_getElem h]
  rfl

lemma sortedX_iff_adj {l : List Point} :
    SortedX l ↔ ∀ j, j + 1 < l.length →
      (l.getD j default).pos.x ≤ (l.getD (j + 1) default).pos.x := by
  haveI : IsTrans Point (fun p q => p.pos.x ≤ q.pos.x) :=
    ⟨fun _ _ _ h1 h2 => le_trans h1 h2⟩
  rw [SortedX, ← List.chain'_iff_pairwise, List.chain'_iff_get]
  constructor
  · intro h j hj
    have hh := h j (by omega)
    rw [getD_eq_get (by omega), getD_eq_get (by omega)]
    exact hh
  · intro h j hj
    have hh := h j (by omega)
    rw [getD_eq_get (by omega), getD_eq_get (by omega)] at hh
    exact hh

lemma sortedX_set {l : List Point} {i : Nat} {q : Point} (hs : SortedX l)
    (hi : i < l.length)
    (hlo : 0 < i → (l.getD (i - 1) default).pos.x ≤ q.pos.x)
    (hhi : i + 1 < l.length → q.pos.x ≤ (l.getD (i + 1) default).pos.x) :
    SortedX (l.set i q) := by
  rw [sortedX_iff_adj] at hs ⊢
  intro j hj
  rw [List.length_set] at hj
  by_cases hji : j = i
  · subst hji
    rw [getD_set_self hi, getD_set_ne (by omega)]
    exact hhi hj
  · by_cases hji2 : j + 1 = i
    · rw [getD_set_ne (by omega), hji2, getD_set_self hi]
      have := hlo (by omega)
      have hj1 : j = i - 1 := by omega
      rw [hj1]
      exact this
    · rw [getD_set_ne (by omega), getD_set_ne (by omega)]
      exact hs j hj

/-! ## Position-map transfer for `SepAt` -/

lemma length_of_map_pos_eq {l1 l2 : List Point}
    (h : l1.map (fun p => p.pos) = l2.map (fun p => p.pos)) :
    l1.length = l2.length := by
  have := congrArg List.length h
  simpa using this

lemma getD_pos_of_map_pos_eq {l1 l2 : List Point}
    (h : l1.map (fun p => p.pos) = l2.map (fun p => p.pos)) (n : Nat) :
    (l1.getD n default).pos = (l2.getD n default).pos := by
  have hlen := length_of_map_pos_eq h
  by_cases hn : n < l1.length
  · have e1 : (l1.map (fun p => p.pos)).getD n (default : Point).pos =
        (l1.getD n default).pos := List.getD_map _ _ _
    have e2 : (l2.map (fun p => p.pos)).getD n (default : Point).pos =
        (l2.getD n default).pos := List.getD_map _ _ _
    rw [← e1, ← e2, h]
  · rw [List.getD_eq_default _ _ (by omega), List.getD_eq_default _ _ (by omega)]

lemma sepAt_of_map_pos_eq {l1 l2 : List Point} {i : Nat}
    (h : l1.map (fun p => p.pos) = l2.map (fun p => p.pos))
    (hsep : SepAt l1 i) : SepAt l2 i := by
  have hlen := length_of_map_pos_eq h
  constructor
  · intro h0
    rw [← getD_pos_of_map_pos_eq h, ← getD_pos_of_map_pos_eq h]
    exact hsep.1 h0
  · intro h1
    rw [← getD_pos_of_map_pos_eq h, ← getD_pos_of_map_pos_eq h]
    exact hsep.2 (by omega)

/-! ## Invariants of reachable curves -/

lemma reachable_invariant {c : Curve} (h : Reachable c) :
    InRange c.points ∧ SortedX c.points := by
  induction h with
  | empty =>
    exact ⟨fun p hp => absurd hp (List.not_mem_nil p), List.Pairwise.nil⟩
  | linear =>
    constructor <;> decide
  | @add c0 q hc ih =>
    obtain ⟨hr, hs⟩ := ih
    have shape := add_point_shape c0 (Point.from_pos q) hs
    constructor
    · rw [shape.2.2.2]
      apply update_inRange
      intro p hp
      rcases mem_insertIdx_any hp with h | h
      · subst h
        exact clampPos_mem _
      · exact hr p h
    · exact add_point_sorted c0 _ hs
  | @remove c0 c2 i hc heq ih =>
    rcases remove_point_some heq with h | h
    · rw [h]; exact ih
    · rw [h]
      refine ⟨fun p hp => ih.1 p ((c0.points.eraseIdx_sublist i).subset hp), ?_⟩
      exact ih.2.sublist (c0.points.eraseIdx_sublist i)
  | @clear c0 hc ih =>
    exact ⟨fun p hp => absurd hp (List.not_mem_nil p), List.Pairwise.nil⟩
  | @setPos c0 i qq hc ih =>
    by_cases hoob : c0.points.length ≤ i
    · rw [set_position_oob hoob]; exact ih
    by_cases hl : 0 < i ∧ (c0.points.getD (i - 1) default).pos.x > (clampPos qq).x
    · rw [set_position_rej_left (by omega) hl]; exact ih
    by_cases hr2 : i < c0.points.length - 1 ∧
        (c0.points.getD (i + 1) default).pos.x < (clampPos qq).x
    · rw [set_position_rej_right (by omega) hl hr2]; exact ih
    rw [set_position_store (by omega) hl hr2]
    constructor
    · apply update_inRange
      intro p hp
      rcases List.mem_or_eq_of_mem_set hp with h | h
      · exact ih.1 p h
      · subst h
        exact clampPos_mem qq
    · apply sortedX_of_map_pos_eq (update_map_pos _ _)
      refine sortedX_set ih.2 (by omega) ?_ ?_
      · intro h0
        rcases not_and_or.mp hl with h | h
        · exact absurd h0 h
        · exact not_lt.mp h
      · intro h1
        rcases not_and_or.mp hr2 with h | h
        · exact absurd (by omega) h
        · exact not_lt.mp h
  | @setLeft c0 i t hc ih =>
    by_cases hg : c0.points.length ≤ i ∨ t.finite = false
    · rw [set_left_tan_guard hg]; exact ih
    obtain ⟨h1, h2⟩ := not_or.mp hg
    have h2t : t.finite = true := by
      cases ht : t.finite
      · exact absurd ht h2
      · rfl
    rw [set_left_tan_store (by omega) h2t]
    constructor
    · intro p hp
      rcases List.mem_or_eq_of_mem_set hp with h | h
      · exact ih.1 p h
      · subst h
        exact ih.1 (c0.points.getD i default)
          (getD_mem (show i < c0.points.length by omega) default)
    · exact sortedX_of_map_pos_eq (map_set_pos rfl) ih.2
  | @setRight c0 i t hc ih =>
    by_cases hg : c0.points.length ≤ i ∨ t.finite = false
    · rw [set_right_tan_guard hg]; exact ih
    obtain ⟨h1, h2⟩ := not_or.mp hg
    have h2t : t.finite = true := by
      cases ht : t.finite
      · exact absurd ht h2
      · rfl
    rw [set_right_tan_store (by omega) h2t]
    constructor
    · intro p hp
      rcases List.mem_or_eq_of_mem_set hp with h | h
      · exact ih.1 p h
      · subst h
        exact ih.1 (c0.points.getD i default)
          (getD_mem (show i < c0.points.length by omega) default)
    · exact sortedX_of_map_pos_eq (map_set_pos rfl) ih.2

lemma reachableSep_reachable {c : Curve} (h : ReachableSep c) : Reachable c := by
  induction h with
  | empty => exact Reachable.empty
  | linear => exact Reachable.linear
  | add q hc hsep ih => exact Reachable.add q ih
  | remove i hc heq ih => exact Reachable.remove i ih heq
  | clear hc ih => exact Reachable.clear ih
  | setPos i q hc hside ih => exact Reachable.setPos i q ih
  | setLeft i t hc ih => exact Reachable.setLeft i t ih
  | setRight i t hc ih => exact Reachable.setRight i t ih

lemma reachableSep_finiteTans {c : Curve} (h : ReachableSep c) :
    FiniteTans c.points := by
  induction h with
  | empty => exact fun p hp => absurd hp (List.not_mem_nil p)
  | linear => decide
  | @add c0 q hc hsep ih =>
    have hs : SortedX c0.points :=
      (reachable_invariant (reachableSep_reachable hc)).2
    have shape := add_point_shape c0 (Point.from_pos q) hs
    rw [shape.2.2.2] at hsep ⊢
    refine update_finiteTans _ _ ?_ ?_ ?_
    · rw [List.length_insertIdx _ _ shape.1]
      omega
    · intro p hp
      rcases mem_insertIdx_any hp with h | h
      · subst h
        exact ⟨rfl, rfl⟩
      · exact ih p h
    · exact sepAt_of_map_pos_eq (update_map_pos _ _) hsep
  | @remove c0 c2 i hc heq ih =>
    rcases remove_point_some heq with h | h
    · rw [h]; exact ih
    · rw [h]
      exact fun p hp => ih p ((c0.points.eraseIdx_sublist i).subset hp)
  | @clear c0 hc ih =>
    exact fun p hp => absurd hp (List.not_mem_nil p)
  | @setPos c0 i qq hc hside ih =>
    by_cases hoob : c0.points.length ≤ i
    · rw [set_position_oob hoob]; exact ih
    by_cases hl : 0 < i ∧ (c0.points.getD (i - 1) default).pos.x > (clampPos qq).x
    · rw [set_position_rej_left (by omega) hl]; exact ih
    by_cases hr2 : i < c0.points.length - 1 ∧
        (c0.points.getD (i + 1) default).pos.x < (clampPos qq).x
    · rw [set_position_rej_right (by omega) hl hr2]; exact ih
    rcases hside with heq | hsep
    · rw [heq]; exact ih
    rw [set_position_store (by omega) hl hr2] at hsep ⊢
    refine update_finiteTans _ _ ?_ ?_ ?_
    · rw [List.length_set]
      omega
    · intro p hp
      rcases List.mem_or_eq_of_mem_set hp with h | h
      · exact ih p h
      · subst h
        exact ih (c0.points.getD i default)
          (getD_mem (show i < c0.points.length by omega) default)
    · exact sepAt_of_map_pos_eq (update_map_pos _ _) hsep
  | @setLeft c0 i t hc ih =>
    by_cases hg : c0.points.length ≤ i ∨ t.finite = false
    · rw [set_left_tan_guard hg]; exact ih
    obtain ⟨h1, h2⟩ := not_or.mp hg
    have h2t : t.finite = true := by
      cases ht : t.finite
      · exact absurd ht h2
      · rfl
    rw [set_left_tan_store (by omega) h2t]
    intro p hp
    rcases List.mem_or_eq_of_mem_set hp with h | h
    · exact ih p h
    · subst h
      exact ⟨h2t, (ih (c0.points.getD i default)
        (getD_mem (show i < c0.points.length by omega) default)).2⟩
  | @setRight c0 i t hc ih =>
    by_cases hg : c0.points.length ≤ i ∨ t.finite = false
    · rw [set_right_tan_guard hg]; exact ih
    obtain ⟨h1, h2⟩ := not_or.mp hg
    have h2t : t.finite = true := by
      cases ht : t.finite
      · exact absurd ht h2
      · rfl
    rw [set_right_tan_store (by omega) h2t]
    intro p hp
    rcases List.mem_or_eq_of_mem_set hp with h | h
    · exact ih p h
    · subst h
      exact ⟨(ih (c0.points.getD i default)
        (getD_mem (show i < c0.points.length by omega) default)).1, h2t⟩

/-! ## Remaining helper lemmas for the claim theorems -/

lemma Point.ext5 {p q : Point} (h1 : p.pos = q.pos) (h2 : p.left_tan = q.left_tan)
    (h3 : p.right_tan = q.right_tan) (h4 : p.left_mode = q.left_mode)
    (h5 : p.right_mode = q.right_mode) : p = q := by
  cases p
  cases q
  simp_all

lemma foldl_add_sorted : ∀ (ps : List Point) (c : Curve), SortedX c.points →
    SortedX (ps.foldl (fun c p => (c.add_point p).2) c).points := by
  intro ps
  induction ps with
  | nil => exact fun c h => h
  | cons p ps ih => exact fun c h => ih _ (add_point_sorted c p h)

/-! ## Claim theorems -/

/-- C1: on a curve with at least 2 points, for a sample input whose located
index `i = get_index x` is neither the last index nor index 0 with `x` at or
before the first point's x, letting `A = points[i]`, `B = points[i+1]` and
`d = B.x - A.x`: if `|d| < 1e-5` then `sample x = B.y`, and otherwise
`sample x` is the cubic Bezier blend
`A.y(1-t)³ + c1·3(1-t)²t + c2·3(1-t)t² + B.y·t³` at `t = (x - A.x)/d` with
`c1 = A.y + (d/3)·A.right_tangent` and `c2 = B.y - (d/3)·B.left_tangent`,
clamped to `[0,1]`. -/
theorem c1_sample_interior_bezier (c : Curve) (x : ℚ)
    (h2 : 2 ≤ c.points.length)
    (hni : c.get_index x ≠ c.points.length - 1)
    (hn0 : ¬(c.get_index x = 0 ∧ x ≤ (c.points.getD 0 default).pos.x)) :
    c.sample x =
      (let A := c.points.getD (c.get_index x) default
       let B := c.points.getD (c.get_index x + 1) default
       let d := B.pos.x - A.pos.x
       if |d| < 1 / 100000 then B.pos.y
       else
         let t := (x - A.pos.x) / d
         let c1 := A.pos.y + d / 3 * A.right_tan.val
         let c2 := B.pos.y - d / 3 * B.left_tan.val
         clamp01 (A.pos.y * (1 - t) ^ 3 + c1 * 3 * (1 - t) ^ 2 * t +
           c2 * 3 * (1 - t) * t ^ 2 + B.pos.y * t ^ 3)) := by
  rw [sample_interior h2 hni hn0]
  simp only [Curve.sample_local_nocheck, EPSILON]
  split_ifs with h
  · rfl
  · congr 1
    simp only [bezier_interpolate]
    ring

/-- Witness for C1 at the built-in linear curve and `x = 1/2` (the located
index 0 is interior there). -/
theorem c1_witness : Curve.linear.sample (1/2) = 1/2 :=
  (c1_sample_interior_bezier Curve.linear (1/2) (by with_unfolding_all decide)
    (by with_unfolding_all decide) (by with_unfolding_all decide)).trans
    (by with_unfolding_all decide)

/-- C2: starting from the empty curve, after any sequence of `add_point`
calls the stored x coordinates are non-decreasing, and each call's returned
index is the position at which the clamped new point was inserted into the
stored sequence. -/
theorem c2_add_point_sort_invariant :
    ∀ ps : List Point,
      SortedX (addPointSeq ps).points ∧
      ∀ p : Point,
        ((addPointSeq ps).add_point p).2.point_positions =
          (addPointSeq ps).point_positions.insertIdx
            ((addPointSeq ps).add_point p).1 (clampPos p.pos) := by
  intro ps
  have hs : SortedX (addPointSeq ps).points :=
    foldl_add_sorted ps ⟨[]⟩ List.Pairwise.nil
  exact ⟨hs, fun p => (add_point_pos_spec (addPointSeq ps) p hs).2⟩

/-- C3 counterexample: `cexDupFront` is reachable through `add_point` alone
and sorted, its first two points share `x = 1/2`, and at the input `x = 1/2`
(which is ≤ the first point's x) `sample` returns `1`, not the first point's
y, which is `0`. -/
theorem c3_counterexample :
    2 ≤ cexDupFront.points.length ∧ SortedX cexDupFront.points ∧
    Reachable cexDupFront ∧
    (1/2 : ℚ) ≤ (cexDupFront.points.getD 0 default).pos.x ∧
    (cexDupFront.points.getD 0 default).pos.y = 0 ∧
    cexDupFront.sample (1/2) = 1 ∧
    cexDupFront.sample (1/2) ≠ (cexDupFront.points.getD 0 default).pos.y := by
  refine ⟨by with_unfolding_all decide, by with_unfolding_all decide, ?_,
    by with_unfolding_all decide, by with_unfolding_all decide,
    by with_unfolding_all decide, by with_unfolding_all decide⟩
  exact Reachable.add _ (Reachable.add _ (Reachable.add _ Reachable.empty))

/-- C3 amended: `sample` on an empty curve returns 0; on a single-point curve
it returns that point's y for every x; on a sorted curve with at least two
points it returns the first point's y for every x strictly below the first
point's x — and also at x equal to the first point's x provided the second
point's x is strictly greater — and the last point's y for every x strictly
above the last point's x. -/
theorem c3_amended_sample_extrapolation (c : Curve) (x : ℚ)
    (hs : SortedX c.points) :
    (c.points.length = 0 → c.sample x = 0) ∧
    (c.points.length = 1 → c.sample x = (c.points.getD 0 default).pos.y) ∧
    (2 ≤ c.points.length →
      ((x < (c.points.getD 0 default).pos.x ∨
        (x = (c.points.getD 0 default).pos.x ∧
          (c.points.getD 0 default).pos.x < (c.points.getD 1 default).pos.x)) →
        c.sample x = (c.points.getD 0 default).pos.y) ∧
      ((c.points.getD (c.points.length - 1) default).pos.x < x →
        c.sample x = (c.points.getD (c.points.length - 1) default).pos.y)) := by
  refine ⟨fun h => sample_empty h x, fun h => sample_single h x,
    fun h2 => ⟨fun hx => sample_low hs h2 hx, fun hx => sample_high hs h2 hx⟩⟩

/-- Witness for the amended C3: flat extrapolation on the linear curve. -/
theorem c3_amended_witness :
    Curve.linear.sample 2 = 1 ∧ Curve.linear.sample (-1) = 0 := by
  constructor
  · exact (((c3_amended_sample_extrapolation Curve.linear 2
      (by with_unfolding_all decide)).2.2 (by with_unfolding_all decide)).2
      (by with_unfolding_all decide)).trans (by with_unfolding_all decide)
  · exact (((c3_amended_sample_extrapolation Curve.linear (-1)
      (by with_unfolding_all decide)).2.2 (by with_unfolding_all decide)).1
      (Or.inl (by with_unfolding_all decide))).trans (by with_unfolding_all decide)

/-- C4: auto-tangent recomputation at an in-bounds index `i` sets each
`Linear` side of point `i` that has a neighbour on that side, and each
existing neighbour's facing side when that side is `Linear`, to `autoSlope`
of the connecting line (whose value is the slope Δy/Δx); every `Free` side
and every point other than `i` and its immediate neighbours is left
completely unchanged.  In particular, on `(0,0),(1/2,1/2),(1,1)` with
all-`Linear` modes, moving the middle point to `(1/2, 4/5)` updates both
middle tangents and the facing tangents of the endpoints to the new
connecting slopes `8/5` and `2/5`, leaving the endpoints' outward tangents
untouched. -/
theorem c4_auto_tangent_propagation :
    (∀ (l : List Point) (i : Nat), i < l.length →
      (Curve.update_auto_tangents ⟨l⟩ i).points.length = l.length ∧
      (Curve.update_auto_tangents ⟨l⟩ i).points.getD i default =
        { l.getD i default with
          left_tan :=
            if 0 < i ∧ (l.getD i default).left_mode = TangentMode.Linear then
              autoSlope (l.getD (i - 1) default).pos (l.getD i default).pos
            else (l.getD i default).left_tan,
          right_tan :=
            if i + 1 < l.length ∧ (l.getD i default).right_mode = TangentMode.Linear then
              autoSlope (l.getD (i + 1) default).pos (l.getD i default).pos
            else (l.getD i default).right_tan } ∧
      (0 < i →
        (Curve.update_auto_tangents ⟨l⟩ i).points.getD (i - 1) default =
          (if (l.getD (i - 1) default).right_mode = TangentMode.Linear then
            { l.getD (i - 1) default with
              right_tan := autoSlope (l.getD (i - 1) default).pos (l.getD i default).pos }
          else l.getD (i - 1) default)) ∧
      (i + 1 < l.length →
        (Curve.update_auto_tangents ⟨l⟩ i).points.getD (i + 1) default =
          (if (l.getD (i + 1) default).left_mode = TangentMode.Linear then
            { l.getD (i + 1) default with
              left_tan := autoSlope (l.getD (i + 1) default).pos (l.getD i default).pos }
          else l.getD (i + 1) default)) ∧
      (∀ n, n ≠ i → n + 1 ≠ i → n ≠ i + 1 →
        (Curve.update_auto_tangents ⟨l⟩ i).points.getD n default = l.getD n default) ∧
      (∀ q p : Q2, (autoSlope q p).val = (q.y - p.y) / (q.x - p.x))) ∧
    ((threePtMoved.points.getD 1 default).left_tan.val = 8/5 ∧
     (threePtMoved.points.getD 1 default).right_tan.val = 2/5 ∧
     (threePtMoved.points.getD 0 default).right_tan.val = 8/5 ∧
     (threePtMoved.points.getD 2 default).left_tan.val = 2/5 ∧
     (threePtMoved.points.getD 0 default).left_tan =
       (threePt.points.getD 0 default).left_tan ∧
     (threePtMoved.points.getD 2 default).right_tan =
       (threePt.points.getD 2 default).right_tan ∧
     threePtMoved.point_positions = [⟨0, 0⟩, ⟨1/2, 4/5⟩, ⟨1, 1⟩] ∧
     (∀ p ∈ threePt.points, p.left_mode = TangentMode.Linear ∧
       p.right_mode = TangentMode.Linear)) := by
  constructor
  · intro l i hi
    refine ⟨update_length l i, ?_, fun h0 => update_getD_prev l i h0 hi,
      fun h1 => update_getD_next l i h1,
      fun n hn1 hn2 hn3 => update_getD_other l i n hn1 hn2 hn3,
      fun q p => rfl⟩
    rw [update_getD_self l i hi]
    refine Point.ext5 ?_ ?_ ?_ ?_ ?_
    · rw [tangentUpdatedPoint_pos]
    · rw [tangentUpdatedPoint_left_tan]
    · rw [tangentUpdatedPoint_right_tan]
    · rw [tangentUpdatedPoint_left_mode]
    · rw [tangentUpdatedPoint_right_mode]
  · refine ⟨?_, ?_, ?_, ?_, ?_, ?_, ?_, ?_⟩ <;> with_unfolding_all decide

/-- Witness for C4 at the concrete three-point curve: recomputation at index 1
rewrites the first point's facing (`Linear`) tangent. -/
theorem c4_witness :
    (Curve.update_auto_tangents ⟨threePt.points⟩ 1).points.getD 0 default =
      (if (threePt.points.getD 0 default).right_mode = TangentMode.Linear then
        { threePt.points.getD 0 default with
          right_tan := autoSlope (threePt.points.getD 0 default).pos
            (threePt.points.getD 1 default).pos }
      else threePt.points.getD 0 default) :=
  (c4_auto_tangent_propagation.1 threePt.points 1
    (by with_unfolding_all decide)).2.2.1 (by decide)

/-- C5 (code bug): `remove_point` on the empty curve panics instead of
silently returning.  The guard `index > self.points.len() - 1` underflows for
an empty vector (panic in a checked build; in release it wraps to
`usize::MAX`, the guard cannot fire, and `Vec::remove` panics on the
out-of-bounds index).  `none` models the panic; on curves with at least one
point no index panics. -/
theorem c5_remove_point_empty_panics :
    Curve.remove_point ⟨[]⟩ 0 = none ∧ Curve.remove_point ⟨[]⟩ 5 = none ∧
    (∀ c : Curve, 1 ≤ c.points.length → ∀ i : Nat,
      (c.remove_point i).isSome = true) := by
  refine ⟨by decide, by decide, ?_⟩
  intro c hc i
  simp only [Curve.remove_point]
  split_ifs with h1 h2
  · rfl
  · rfl
  · exfalso
    simp only [usizeSub1] at h1
    omega

/-- Witness for C5's non-panicking part at a 2-point curve. -/
theorem c5_witness : (Curve.linear.remove_point 0).isSome = true :=
  c5_remove_point_empty_panics.2.2 Curve.linear (by decide) 0

/-- C6 (code bug): the claim — and the spec's own contract ("left_tangent,
right_tangent: … finite (never NaN/∞)", "Output y is always clamped to
[0,1]", "never fail, always return a sensible value") — is violated by the
code: `sample` can return `NaN ∉ [0,1]` on a reachable curve.  This theorem
machine-checks every ingredient of the failing run
`add_point(1,1); add_point(1/2,1); add_point(1/2,1); remove_point(1);
sample(3/4)`:
* the `remove_point(1)` step succeeds and is reachable;
* before the removal, points 0 and 1 are fully coincident, so the
  auto-tangent recomputation performed by the third `add_point` normalized
  the zero vector — in `f32` exactly `0/0 = NaN` — into
  `points[0].right_tan`, whose finiteness certificate is `false`;
* after the removal the positions are `[(1/2,1), (1,1)]`: the stale
  non-finite tangent now borders a segment of width `1/2`, which is not
  degenerate (`≥ EPSILON`), so the Bézier blend is evaluated;
* at `x = 3/4` the located index is 0, which is neither the last index nor
  an early-out at the left end, so `sample` reaches the blend and feeds the
  non-finite `points[0].right_tan` into it.
In `f32`, `yac = a.y + (d/3)·NaN = NaN`, every blend term with a `NaN`
factor is `NaN`, and Rust's `f32::clamp` returns `NaN` for a `NaN` input, so
the program's `sample(3/4)` is `NaN`, outside `[0,1]`.  (The exact-rational
`sample` of this file cannot express that value — see
`sample_local_nocheck` — which is why the claim is settled by this evidence
rather than by a range theorem.) -/
theorem c6_nan_leak_evidence :
    nanLeakPre.remove_point 1 = some nanLeakCurve ∧
    Reachable nanLeakCurve ∧
    (nanLeakPre.points.getD 0 default).pos = (nanLeakPre.points.getD 1 default).pos ∧
    (nanLeakCurve.points.getD 0 default).right_tan.finite = false ∧
    nanLeakCurve.point_positions = [⟨1/2, 1⟩, ⟨1, 1⟩] ∧
    ¬(|(nanLeakCurve.points.getD 1 default).pos.x -
        (nanLeakCurve.points.getD 0 default).pos.x| < EPSILON) ∧
    nanLeakCurve.get_index (3/4) = 0 ∧
    nanLeakCurve.points.length - 1 ≠ 0 ∧
    ¬((3/4 : ℚ) - (nanLeakCurve.points.getD 0 default).pos.x ≤ 0) := by
  have heq : nanLeakPre.remove_point 1 = some nanLeakCurve := by
    with_unfolding_all decide
  refine ⟨heq, ?_, by with_unfolding_all decide, by with_unfolding_all decide,
    by with_unfolding_all decide, by with_unfolding_all decide,
    by with_unfolding_all decide, by with_unfolding_all decide,
    by with_unfolding_all decide⟩
  exact Reachable.remove 1
    (Reachable.add _ (Reachable.add _ (Reachable.add _ Reachable.empty))) heq

/-- C7: `set_position` clamps the new position into `[0,1]²` first; it leaves
the curve entirely unchanged when the index is out of range, when the clamped
x is less than the previous point's x (a previous point existing), or greater
than the next point's x (a next point existing); otherwise it stores the
clamped position at the index and reruns auto-tangent recomputation there. -/
theorem c7_set_position_behavior (c : Curve) (i : Nat) (q : Q2) :
    (c.points.length ≤ i → c.set_position i q = c) ∧
    (i < c.points.length → 0 < i →
      (clampPos q).x < (c.points.getD (i - 1) default).pos.x →
      c.set_position i q = c) ∧
    (i < c.points.length → i < c.points.length - 1 →
      (c.points.getD (i + 1) default).pos.x < (clampPos q).x →
      c.set_position i q = c) ∧
    (i < c.points.length →
      (0 < i → (c.points.getD (i - 1) default).pos.x ≤ (clampPos q).x) →
      (i < c.points.length - 1 →
        (clampPos q).x ≤ (c.points.getD (i + 1) default).pos.x) →
      c.set_position i q =
        Curve.update_auto_tangents
          ⟨c.points.set i { c.points.getD i default with pos := clampPos q }⟩ i) := by
  refine ⟨fun h => set_position_oob h,
    fun hin h0 hx => set_position_rej_left hin ⟨h0, hx⟩,
    fun hin hlt hx => ?_, fun hin hlo hhi => ?_⟩
  · by_cases hl : 0 < i ∧ (c.points.getD (i - 1) default).pos.x > (clampPos q).x
    · exact set_position_rej_left hin hl
    · exact set_position_rej_right hin hl ⟨hlt, hx⟩
  · exact set_position_store hin
      (fun hcon => absurd (hlo hcon.1) (not_le.mpr hcon.2))
      (fun hcon => absurd (hhi hcon.1) (not_le.mpr hcon.2))

/-- Witness for C7: an out-of-range index is a no-op; an in-range move whose
clamped x stays between the neighbours is stored with recomputation. -/
theorem c7_witness :
    Curve.linear.set_position 5 ⟨1/2, 1/2⟩ = Curve.linear ∧
    Curve.linear.set_position 1 ⟨2, 1/2⟩ =
      Curve.update_auto_tangents
        ⟨Curve.linear.points.set 1
          { Curve.linear.points.getD 1 default with pos := clampPos ⟨2, 1/2⟩ }⟩ 1 := by
  constructor
  · exact (c7_set_position_behavior Curve.linear 5 ⟨1/2, 1/2⟩).1 (by decide)
  · exact (c7_set_position_behavior Curve.linear 1 ⟨2, 1/2⟩).2.2.2 (by decide)
      (by with_unfolding_all decide) (by with_unfolding_all decide)

/-- C8: the tangent setters are no-ops exactly on an out-of-range index or a
non-finite (`NaN`/`±∞`) value; otherwise they store the value and force that
side's mode to `Free`, changing nothing else (the result is the single-index
in-place update shown); the getters return `none` exactly on an out-of-range
index and the stored tangent otherwise. -/
theorem c8_tangent_setters_getters (c : Curve) (i : Nat) (t : FVal) :
    ((c.points.length ≤ i ∨ t.finite = false) →
      c.set_left_tan i t = c ∧ c.set_right_tan i t = c) ∧
    (i < c.points.length → t.finite = true →
      c.set_left_tan i t =
        ⟨c.points.set i
          { c.points.getD i default with
            left_tan := t, left_mode := TangentMode.Free }⟩ ∧
      c.set_right_tan i t =
        ⟨c.points.set i
          { c.points.getD i default with
            right_tan := t, right_mode := TangentMode.Free }⟩) ∧
    (c.get_left_tan i = none ↔ c.points.length ≤ i) ∧
    (c.get_right_tan i = none ↔ c.points.length ≤ i) ∧
    (i < c.points.length →
      c.get_left_tan i = some (c.points.getD i default).left_tan ∧
      c.get_right_tan i = some (c.points.getD i default).right_tan) := by
  refine ⟨fun h => ⟨set_left_tan_guard h, set_right_tan_guard h⟩,
    fun hin ht => ⟨set_left_tan_store hin ht, set_right_tan_store hin ht⟩,
    ?_, ?_, fun hin => ⟨?_, ?_⟩⟩
  · simp only [Curve.get_left_tan]
    split_ifs with h <;> simp [h]
  · simp only [Curve.get_right_tan]
    split_ifs with h <;> simp [h]
  · simp only [Curve.get_left_tan]
    rw [if_neg (by omega)]
  · simp only [Curve.get_right_tan]
    rw [if_neg (by omega)]

/-- Witness for C8: a finite value is stored with mode forced to `Free`; a
non-finite value and an out-of-range index are rejected. -/
theorem c8_witness :
    Curve.linear.set_left_tan 0 ⟨5, true⟩ =
      ⟨Curve.linear.points.set 0
        { Curve.linear.points.getD 0 default with
          left_tan := ⟨5, true⟩, left_mode := TangentMode.Free }⟩ ∧
    Curve.linear.set_left_tan 0 ⟨5, false⟩ = Curve.linear ∧
    Curve.linear.get_left_tan 7 = none := by
  refine ⟨?_, ?_, ?_⟩
  · exact ((c8_tangent_setters_getters Curve.linear 0 ⟨5, true⟩).2.1
      (by decide) rfl).1
  · exact ((c8_tangent_setters_getters Curve.linear 0 ⟨5, false⟩).1 (Or.inr rfl)).1
  · exact (c8_tangent_setters_getters Curve.linear 7 ⟨0, true⟩).2.2.1.mpr (by decide)

/-- C9 counterexample: the claim "tangents are never NaN and never infinite on
every reachable curve" is false — `badTanCurve` is reached by three
`add_point` calls alone, and the auto-tangent recomputation at its equal-x
pair (the x coordinates coincide exactly, also as `f32`s: `1/2` is exactly
representable) divided by `Δx = 0`, which in `f32` yields `±∞` (or `NaN`),
stored on the two facing `Linear` sides; the finiteness certificates of those
tangents are `false`. -/
theorem c9_counterexample :
    Reachable badTanCurve ∧
    (badTanCurve.points.getD 0 default).pos.x =
      (badTanCurve.points.getD 1 default).pos.x ∧
    (badTanCurve.points.getD 1 default).left_tan.finite = false ∧
    (badTanCurve.points.getD 0 default).right_tan.finite = false := by
  refine ⟨?_, by with_unfolding_all decide, by with_unfolding_all decide,
    by with_unfolding_all decide⟩
  exact Reachable.add _ (Reachable.add _ (Reachable.add _ Reachable.empty))

/-- C9 amended: all stored tangents stay finite on every curve reachable by
public operations in which each `add_point` insertion and each effective
`set_position` keeps the affected point tamely separated from its immediate
neighbours — x coordinates at least `2⁻⁶⁰` apart and connecting slopes of
magnitude at most `2¹⁰⁰` (`SepAt`, a conservative within-`f32`-range
condition; for positions in `[0,1]` the slope bound follows from the width
bound).  Auto-tangent recomputation toward an equal-x neighbour stores
`NaN`/`±∞`, and toward a nearly-equal-x neighbour can overflow to `±∞`, so
some such restriction is forced. -/
theorem c9_amended_finite_tangents (c : Curve) (h : ReachableSep c) :
    ∀ p ∈ c.points, p.left_tan.finite = true ∧ p.right_tan.finite = true :=
  reachableSep_finiteTans h

/-- Witness for the amended C9 at the linear curve. -/
theorem c9_witness :
    (Curve.linear.points.getD 0 default).left_tan.finite = true :=
  (c9_amended_finite_tangents Curve.linear ReachableSep.linear
    (Curve.linear.points.getD 0 default) (by decide)).1

/-- C10: `set_position`'s ordering rejection is strict — a clamped x exactly
equal to a neighbour's x is accepted and stored — and consequently two
adjacent points with the same x are reachable through the public interface
(`dupXCurve`, whose points 1 and 2 share `x = 1`). -/
theorem c10_equal_x_accepted :
    (∀ (c : Curve) (i : Nat) (q : Q2), i < c.points.length →
      (0 < i → (c.points.getD (i - 1) default).pos.x ≤ (clampPos q).x) →
      (i + 1 < c.points.length →
        (clampPos q).x ≤ (c.points.getD (i + 1) default).pos.x) →
      ((c.set_position i q).points.getD i default).pos = clampPos q) ∧
    (Reachable dupXCurve ∧
      (dupXCurve.points.getD 1 default).pos.x = (dupXCurve.points.getD 2 default).pos.x ∧
      dupXCurve.points.length = 3) := by
  constructor
  · intro c i q hin hlo hhi
    rw [set_position_store hin
      (fun hcon => absurd (hlo hcon.1) (not_le.mpr hcon.2))
      (fun hcon => absurd (hhi (by omega)) (not_le.mpr hcon.2))]
    rw [update_getD_self _ i (by rw [List.length_set]; omega),
      tangentUpdatedPoint_pos, getD_set_self (by omega)]
  · refine ⟨?_, by with_unfolding_all decide, by with_unfolding_all decide⟩
    exact Reachable.setPos 1 ⟨1, 1/2⟩ (Reachable.add _ Reachable.linear)

/-- Witness for C10: moving the second point of the linear curve to x = 0 —
exactly the first point's x — is accepted and stored. -/
theorem c10_witness :
    ((Curve.linear.set_position 1 ⟨0, 1/2⟩).points.getD 1 default).pos = ⟨0, 1/2⟩ :=
  (c10_equal_x_accepted.1 Curve.linear 1 ⟨0, 1/2⟩ (by decide)
    (by with_unfolding_all decide) (by with_unfolding_all decide)).trans
    (by with_unfolding_all decide)
